import Mathlib

/-!
Verification development for the Holes excavation simulator (Holes.py).

Shallow embedding conventions:
* Python floats are modelled as exact rationals (ℚ).  Calls to math.sqrt
  (whose float result is approximate) are modelled by an explicit oracle
  parameter sq : ℚ → ℚ; theorems that need properties of the square root
  state them as hypotheses on the oracle.
* Python round(x) (round-half-to-even) is pyRound, round(x, 2) is pyRound2.
* Fatal paths (print + exit(), uncaught exceptions) are modelled by Option:
  a function returns none exactly when the Python code aborts the process.
* Stateful objects become explicit state records; digHole returns the hit
  flag together with the updated field state.
* Randomness (random.random, random.gauss, scrambled Halton draws) and the
  treasure-dependent result of digging are supplied by oracle functions, so
  theorems quantify over every possible draw / treasure placement.
-/

/-- Python round(x): round half to even (banker's rounding), from float to int. -/
def pyRound (q : ℚ) : ℤ :=
  let f := ⌊q⌋
  let r := q - (f : ℚ)
  if r < 1/2 then f
  else if 1/2 < r then f + 1
  else if f % 2 = 0 then f else f + 1

/-- Python round(x, 2): round to two decimal places (used only in equality
checks of layout extents in doStaggeredLayout). -/
def pyRound2 (q : ℚ) : ℚ := (pyRound (q * 100) : ℚ) / 100

/-- Holes.py class Hole: an immutable square/rectangular hole on a field. -/
structure Hole where
  centreX : ℚ
  centreY : ℚ
  width : ℚ
  height : ℚ
  deriving Repr, DecidableEq

namespace Hole

/-- Hole.intersects: axis-aligned rectangle overlap test, strict on both axes. -/
def intersects (self anotherHole : Hole) : Bool :=
  let h1Top := self.centreY - self.height / 2
  let h1Left := self.centreX - self.width / 2
  let h1Bottom := self.centreY + self.height / 2
  let h1Right := self.centreX + self.width / 2
  let h2Top := anotherHole.centreY - anotherHole.height / 2
  let h2Left := anotherHole.centreX - anotherHole.width / 2
  let h2Bottom := anotherHole.centreY + anotherHole.height / 2
  let h2Right := anotherHole.centreX + anotherHole.width / 2
  let xOverlaps := decide (h2Left < h1Right) && decide (h2Right > h1Left)
  let yOverlaps := decide (h2Top < h1Bottom) && decide (h2Bottom > h1Top)
  xOverlaps && yOverlaps

end Hole

/-- The treasure stored on an IntersectField: either a circle (placed by
placeCircularTreasure, rectangularTreasure flag False) or a rectangle
(placed by placeRectangularTreasure, rectangularTreasure flag True). -/
inductive Treasure where
  | circle (centreX centreY radius : ℚ)
  | rect (centreX centreY width height : ℚ)
  deriving Repr, DecidableEq

/-- IntersectField.__intersectsTreasure, parameterised by the sqrt oracle sq
used for the circle distance computation. -/
def intersectsTreasure (sq : ℚ → ℚ) (t : Treasure) (hole : Hole) : Bool :=
  match t with
  | .circle cx cy r =>
      let holeL := hole.centreX - hole.width / 2
      let holeR := hole.centreX + hole.width / 2
      let holeT := hole.centreY - hole.height / 2
      let holeB := hole.centreY + hole.height / 2
      let closestXToCircle := max holeL (min cx holeR)
      let closestYToCircle := max holeT (min cy holeB)
      let distanceToClosestPoint := sq ((cx - closestXToCircle) ^ 2 + (cy - closestYToCircle) ^ 2)
      decide (distanceToClosestPoint < r)
  | .rect cx cy tw th =>
      let holeLeft := hole.centreX - hole.width / 2
      let holeRight := hole.centreX + hole.width / 2
      let holeBottom := hole.centreY + hole.height / 2
      let holeTop := hole.centreY - hole.height / 2
      let treasureLeft := cx - tw / 2
      let treasureRight := cx + tw / 2
      let treasureBottom := cy + th / 2
      let treasureTop := cy - th / 2
      let xOverlaps := decide (treasureLeft < holeRight) && decide (treasureRight > holeLeft)
      let yOverlaps := decide (treasureTop < holeBottom) && decide (treasureBottom > holeTop)
      xOverlaps && yOverlaps

/-- State of Holes.py class IntersectField.  The treasure component is
meaningful once treasurePlaced is true. -/
structure IntersectField where
  width : ℚ
  height : ℚ
  holes : List Hole
  treasurePlaced : Bool
  adjustedHoleAtBorder : Bool
  treasure : Treasure
  deriving Repr, DecidableEq

/-- The hole-centre clamping performed by every digHole variant on one axis:
shift the centre inward to holeSize/2 from an edge the square would cross,
leave it unchanged otherwise.  Second component reports whether a clamp
branch was taken (IntersectField records it in adjustedHoleAtBorder). -/
def clampCentre (extent holeSize c : ℚ) : ℚ × Bool :=
  if c - holeSize / 2 < 0 then (holeSize / 2, true)
  else if c + holeSize / 2 > extent then (extent - holeSize / 2, true)
  else (c, false)

namespace IntersectField

/-- IntersectField.digHole.  Returns none on the fatal
"define treasure before placing holes" path (print + exit()); otherwise the
hit flag and the updated field state. -/
def digHole (sq : ℚ → ℚ) (f : IntersectField) (holeSize centreX centreY : ℚ) :
    Option (Bool × IntersectField) :=
  if f.treasurePlaced = false then none
  else
    let px := clampCentre f.width holeSize centreX
    let py := clampCentre f.height holeSize centreY
    let hole : Hole := ⟨px.1, py.1, holeSize, holeSize⟩
    some (intersectsTreasure sq f.treasure hole,
      { f with
        holes := f.holes ++ [hole]
        adjustedHoleAtBorder := f.adjustedHoleAtBorder || px.2 || py.2 })

/-- A sequence of digHole calls (holeSize, centreX, centreY), threading the
field state; none as soon as one call is fatal.  Used to state that the
border-adjustment flag persists for the lifetime of the field. -/
def digMany (sq : ℚ → ℚ) (f : IntersectField) : List (ℚ × ℚ × ℚ) → Option IntersectField
  | [] => some f
  | c :: cs =>
      match digHole sq f c.1 c.2.1 c.2.2 with
      | none => none
      | some r => digMany sq r.2 cs

end IntersectField

/-- The closed-bounding-box membership test applied to each artefact in
RealWorldData.numArtefactsInHole (and in its commented-out brute-force
check): the artefact at normalised (x, y), translated by the placement
(topLeftX, topLeftY), lies within [left, right] × [top, bottom]. -/
def artefactInBox (topLeftX topLeftY left right top bottom : ℚ) (p : ℚ × ℚ) : Bool :=
  decide (left ≤ topLeftX + p.1) && decide (right ≥ topLeftX + p.1) &&
    decide (top ≤ topLeftY + p.2) && decide (bottom ≥ topLeftY + p.2)

/-- The parcel grid built by RealWorldData.__init__: parcel (i, j) holds
exactly the normalised artefacts whose floors are (i, j). -/
def parcelArtefacts (artefacts : List (ℚ × ℚ)) (i j : ℤ) : List (ℚ × ℚ) :=
  artefacts.filter fun p => decide (⌊p.1⌋ = i) && decide (⌊p.2⌋ = j)

/-- The left edge of a hole, as computed throughout Holes.py. -/
def holeLeft (h : Hole) : ℚ := h.centreX - h.width / 2

/-- The right edge of a hole. -/
def holeRight (h : Hole) : ℚ := h.centreX + h.width / 2

/-- The top edge of a hole. -/
def holeTop (h : Hole) : ℚ := h.centreY - h.height / 2

/-- The bottom edge of a hole. -/
def holeBottom (h : Hole) : ℚ := h.centreY + h.height / 2

/-- RealWorldData.numArtefactsInHole: count the artefacts uncovered by the
hole via the parcel bucket index.  artefacts is the list of normalised
artefacts (so the stored minima are minX = minY = 0, as set at the end of
RealWorldData.__init__), maxX/maxY the normalised maxima, and
(topLeftX, topLeftY) the placement set by placeTopLeft.  The first branch
is the quick rejection test against the treasure bounding box; the sums
range over the data parcels startX..endX × startY..endY of the source. -/
def numArtefactsInHole (artefacts : List (ℚ × ℚ)) (maxX maxY topLeftX topLeftY : ℚ)
    (hole : Hole) : ℕ :=
  if holeLeft hole > topLeftX + maxX ∨ holeRight hole < topLeftX + 0 ∨
      holeTop hole > topLeftY + maxY ∨ holeBottom hole < topLeftY + 0 then 0
  else
    ∑ x ∈ Finset.Icc ⌊max (holeLeft hole) topLeftX - topLeftX⌋
        ⌊min (holeRight hole) (topLeftX + maxX) - topLeftX⌋,
      ∑ y ∈ Finset.Icc ⌊max (holeTop hole) topLeftY - topLeftY⌋
          ⌊min (holeBottom hole) (topLeftY + maxY) - topLeftY⌋,
        (parcelArtefacts artefacts x y).countP
          (artefactInBox topLeftX topLeftY (holeLeft hole) (holeRight hole)
            (holeTop hole) (holeBottom hole))

/-- The brute-force reference count from the spec (and from the commented-out
raw-data check inside numArtefactsInHole): a linear scan over all normalised
artefact points. -/
def bruteForceArtefactCount (artefacts : List (ℚ × ℚ)) (topLeftX topLeftY : ℚ)
    (hole : Hole) : ℕ :=
  artefacts.countP (artefactInBox topLeftX topLeftY (holeLeft hole) (holeRight hole)
    (holeTop hole) (holeBottom hole))

/-- State of Holes.py class RealWorldField, with the placed RealWorldData
inlined (normalised artefact list, normalised maxima, placement top-left).
artefactCount is the instance attribute set by __intersectsTreasure. -/
structure RealWorldField where
  width : ℚ
  height : ℚ
  holes : List Hole
  treasurePlaced : Bool
  dataMaxX : ℚ
  dataMaxY : ℚ
  topLeftX : ℚ
  topLeftY : ℚ
  artefacts : List (ℚ × ℚ)
  artefactCount : ℕ
  deriving Repr, DecidableEq

namespace RealWorldField

/-- RealWorldField.digHole: clamps the centre exactly like
IntersectField.digHole but records nothing about clamping, appends the hole
and tests it against the artefact data.  none on the fatal
"define treasure before placing holes" path. -/
def digHole (f : RealWorldField) (holeSize centreX centreY : ℚ) :
    Option (Bool × RealWorldField) :=
  if f.treasurePlaced = false then none
  else
    let px := clampCentre f.width holeSize centreX
    let py := clampCentre f.height holeSize centreY
    let hole : Hole := ⟨px.1, py.1, holeSize, holeSize⟩
    let cnt := numArtefactsInHole f.artefacts f.dataMaxX f.dataMaxY f.topLeftX f.topLeftY hole
    some (decide (cnt > 0),
      { f with holes := f.holes ++ [hole], artefactCount := cnt })

end RealWorldField

/-- State of Holes.py class PolygonField.  Its __init__ does not initialise
__treasurePlaced at all (only placePolygonTreasure sets it, to True), so the
attribute is modelled as Option Bool with none for "not yet defined";
digHole on a fresh field raises AttributeError, which is fatal. -/
structure PolygonField where
  width : ℚ
  height : ℚ
  holes : List Hole
  treasurePlaced : Option Bool
  deriving Repr, DecidableEq

namespace PolygonField

/-- PolygonField.digHole, parameterised by the shapely polygon-intersection
test treasureTest (external library code).  none on the fatal paths: an
AttributeError when __treasurePlaced was never set, or the explicit
print + exit() when it is False. -/
def digHole (treasureTest : Hole → Bool) (f : PolygonField) (holeSize centreX centreY : ℚ) :
    Option (Bool × PolygonField) :=
  if f.treasurePlaced ≠ some true then none
  else
    let px := clampCentre f.width holeSize centreX
    let py := clampCentre f.height holeSize centreY
    let hole : Hole := ⟨px.1, py.1, holeSize, holeSize⟩
    some (treasureTest hole, { f with holes := f.holes ++ [hole] })

end PolygonField

/-- Parameters of StaggeredPlayer.doStaggeredLayout (field dimensions come
from the field argument in the source; holes are counted with ℕ as the
layout only runs for nonnegative row/column counts). -/
structure LayoutParams where
  fieldWidth : ℚ
  fieldHeight : ℚ
  holeSize : ℚ
  xHoles : ℕ
  yHoles : ℕ
  borderX : ℚ
  dX : ℚ
  borderY : ℚ
  dY : ℚ
  staggerY : Bool
  randomise : Bool
  stdDevDivisor : ℚ
  deriving Repr, DecidableEq

/-- The randomise branch of doStaggeredLayout: gx, gy are the results of the
two random.gauss draws (mean posX/posY, deviation dX/stdDevDivisor resp.
dY/stdDevDivisor); the draw is clamped to the half-spacing cell, except that
positions on an outer border stay exactly on that border. -/
def jitterPosition (p : LayoutParams) (posX posY gx gy : ℚ) : ℚ × ℚ :=
  let startX := posX - p.dX / 2
  let endX := posX + p.dX / 2
  let startY := posY - p.dY / 2
  let endY := posY + p.dY / 2
  let onLeftBorder := pyRound2 posX = pyRound2 p.borderX
  let onRightBorder := pyRound2 posX = pyRound2 (p.fieldWidth - p.borderX)
  let onTopBorder := pyRound2 posY = pyRound2 p.borderY
  let onBottomBorder := pyRound2 posY = pyRound2 (p.fieldHeight - p.borderY)
  let rx :=
    if ¬(onLeftBorder ∨ onRightBorder) then
      let rx1 := if gx < startX then startX else gx
      if rx1 > endX then endX else rx1
    else if onLeftBorder then p.borderX
    else p.fieldWidth - p.borderX
  let ry :=
    if ¬(onTopBorder ∨ onBottomBorder) then
      let ry1 := if gy < startY then startY else gy
      if ry1 > endY then endY else ry1
    else if onTopBorder then p.borderY
    else p.fieldHeight - p.borderY
  (rx, ry)

/-- The pos_y used for the hole in column x of row y: with staggerY the
source reassigns pos_y on every column, otherwise the row's pos_y is kept. -/
def colPosY (p : LayoutParams) (y x : ℕ) (posY : ℚ) : ℚ :=
  if p.staggerY then
    (if x % 2 = 0 then p.borderY + p.dY * y else p.borderY + p.dY / 2 + p.dY * y)
  else posY

/-- The position actually dug for one hole: the grid position, or its
jittered variant when randomise is on (made is the index of this dig,
used to address the gauss draw oracle). -/
def digPosition (p : LayoutParams) (gauss : ℕ → ℚ × ℚ) (posX posY1 : ℚ) (made : ℕ) :
    ℚ × ℚ :=
  if p.randomise then jitterPosition p posX posY1 (gauss made).1 (gauss made).2
  else (posX, posY1)

/-- Inner (x) loop of doStaggeredLayout.  dig is the field's digHole
(state, holeSize, x, y); gauss supplies the random.gauss draws for the k-th
dig; made counts digHole calls (holesMade in the source).  An early return
(returnAfterHit and found) is the Sum.inl case and carries
xHoles * yHoles as the reported count. -/
def staggeredCols {σ : Type} (p : LayoutParams) (dig : σ → ℚ → ℚ → ℚ → Bool × σ)
    (gauss : ℕ → ℚ × ℚ) (returnAfterHit : Bool) (y : ℕ) :
    ℕ → ℕ → ℚ → ℚ → Bool → ℕ → σ → (Bool × ℕ × σ) ⊕ (Bool × ℕ × σ)
  | 0, _, _, _, found, made, s => Sum.inr (found, made, s)
  | rem + 1, x, posX, posY, found, made, s =>
      let posY1 := colPosY p y x posY
      let pos := digPosition p gauss posX posY1 made
      let dug := dig s p.holeSize pos.1 pos.2
      let found1 := found || dug.1
      if returnAfterHit && found1 then Sum.inl (found1, p.xHoles * p.yHoles, dug.2)
      else staggeredCols p dig gauss returnAfterHit y rem (x + 1) (posX + p.dX) posY1 found1
        (made + 1) dug.2

/-- Outer (y) loop of doStaggeredLayout.  The row counter of the source
always equals the loop variable y, so a single counter is carried. -/
def staggeredRows {σ : Type} (p : LayoutParams) (dig : σ → ℚ → ℚ → ℚ → Bool × σ)
    (gauss : ℕ → ℚ × ℚ) (returnAfterHit : Bool) :
    ℕ → ℕ → Bool → ℕ → σ → (Bool × ℕ × σ) ⊕ (Bool × ℕ × σ)
  | 0, _, found, made, s => Sum.inr (found, made, s)
  | rem + 1, y, found, made, s =>
      let posX := if y % 2 ≠ 0 then p.borderX + p.dX / 2 else p.borderX
      let posY := p.borderY + p.dY * y
      match staggeredCols p dig gauss returnAfterHit y p.xHoles 0 posX posY found made s with
      | Sum.inl e => Sum.inl e
      | Sum.inr (f1, m1, s1) => staggeredRows p dig gauss returnAfterHit rem (y + 1) f1 m1 s1

/-- totalX of doStaggeredLayout: the horizontal extent the parameters span. -/
def totalXExtent (p : LayoutParams) : ℚ :=
  2 * p.borderX + ((p.xHoles : ℚ) - 1/2) * p.dX

/-- totalY of doStaggeredLayout: the vertical extent the parameters span. -/
def totalYExtent (p : LayoutParams) : ℚ :=
  if p.staggerY then 2 * p.borderY + ((p.yHoles : ℚ) - 1/2) * p.dY
  else 2 * p.borderY + ((p.yHoles : ℚ) - 1) * p.dY

/-- StaggeredPlayer.doStaggeredLayout.  none models the fatal
"staggered layout does not fit the field" exits (both checks compare
round(·, 2) values); otherwise ((found, reported count), final field state).
The numHolesSucceed / artefactCount bookkeeping of the source does not
influence the returned pair and is not modelled. -/
def doStaggeredLayout {σ : Type} (p : LayoutParams) (dig : σ → ℚ → ℚ → ℚ → Bool × σ)
    (gauss : ℕ → ℚ × ℚ) (returnAfterHit : Bool) (s : σ) : Option ((Bool × ℕ) × σ) :=
  if pyRound2 (totalXExtent p) ≠ pyRound2 p.fieldWidth then none
  else if pyRound2 (totalYExtent p) ≠ pyRound2 p.fieldHeight then none
  else
    match staggeredRows p dig gauss returnAfterHit p.yHoles 0 false 0 s with
    | Sum.inl (f, n, s1) => some ((f, n), s1)
    | Sum.inr (f, n, s1) => some ((f, n), s1)

/-- Loop of HaltonPlayer.play: points i is the i-th point of the scrambled
2-D Halton sample (each coordinate in [0, 1)); border is the value computed
by the HaltonPlayer constructor.  Both the early return and the final
return report numHoles. -/
def haltonLoop {σ : Type} (dig : σ → ℚ → ℚ → ℚ → Bool × σ) (points : ℕ → ℚ × ℚ)
    (fieldWidth fieldHeight holeSize border : ℚ) (numHoles : ℕ) (returnAfterHit : Bool) :
    ℕ → ℕ → Bool → σ → (Bool × ℕ) × σ
  | 0, _, found, s => ((found, numHoles), s)
  | rem + 1, i, found, s =>
      let pt := points i
      let x := pt.1 * (fieldWidth - 2 * border) + border
      let y := pt.2 * (fieldHeight - 2 * border) + border
      let dug := dig s holeSize x y
      let found1 := dug.1 || found
      if returnAfterHit && found1 then ((found1, numHoles), dug.2)
      else haltonLoop dig points fieldWidth fieldHeight holeSize border numHoles returnAfterHit
        rem (i + 1) found1 dug.2

/-- HaltonPlayer.play. -/
def haltonPlay {σ : Type} (dig : σ → ℚ → ℚ → ℚ → Bool × σ) (points : ℕ → ℚ × ℚ)
    (fieldWidth fieldHeight holeSize border : ℚ) (numHoles : ℕ) (returnAfterHit : Bool)
    (s : σ) : (Bool × ℕ) × σ :=
  haltonLoop dig points fieldWidth fieldHeight holeSize border numHoles returnAfterHit
    numHoles 0 false s

/-- HexagonalLikePlayer.quadratic: the quadratic formula, returning the
first root when it is positive and the second root otherwise. -/
def quadratic (sq : ℚ → ℚ) (a b c : ℚ) : ℚ :=
  let x1 := (-1 * b + sq (b ^ 2 - 4 * a * c)) / (2 * a)
  let x2 := (-1 * b - sq (b ^ 2 - 4 * a * c)) / (2 * a)
  if x1 > 0 then x1 else x2

/-- The coefficients (a, b, c) of the quadratic call that finally determines
numHoles_x in HexagonalLikePlayer.play (when LRBorder and staggerY hold, the
first quadratic result is overwritten by the staggered variant).  The
combination LRBorder = false, staggerY = true is fatal before any quadratic
is used. -/
def hexCoeffs (sq : ℚ → ℚ) (fieldWidth fieldHeight numHoles : ℚ)
    (LRBorder staggerY : Bool) : ℚ × ℚ × ℚ :=
  if LRBorder then
    if staggerY then
      (4 * fieldHeight, 2 * fieldHeight - sq 3 * fieldWidth, -2 * sq 3 * numHoles * fieldWidth)
    else (2 * fieldHeight, fieldHeight, -1 * sq 3 * numHoles * fieldWidth)
  else (2 * fieldHeight, -1 * fieldHeight, -1 * sq 3 * numHoles * fieldWidth)

/-- The layout data computed by HexagonalLikePlayer.play before it delegates
to doStaggeredLayout. -/
structure HexLayout where
  nx : ℤ
  ny : ℤ
  dX : ℚ
  dY : ℚ
  borderX : ℚ
  borderY : ℚ
  layoutError : Bool
  deriving Repr, DecidableEq

/-- numHoles_x of HexagonalLikePlayer.play: the quadratic solution for the
number of holes in a row. -/
def hexNumHolesX (sq : ℚ → ℚ) (fieldWidth fieldHeight numHoles : ℚ)
    (LRBorder staggerY : Bool) : ℚ :=
  quadratic sq (hexCoeffs sq fieldWidth fieldHeight numHoles LRBorder staggerY).1
    (hexCoeffs sq fieldWidth fieldHeight numHoles LRBorder staggerY).2.1
    (hexCoeffs sq fieldWidth fieldHeight numHoles LRBorder staggerY).2.2

/-- actualNumHoles[0]: the rounded column count. -/
def hexNx (sq : ℚ → ℚ) (fieldWidth fieldHeight numHoles : ℚ) (LRBorder staggerY : Bool) : ℤ :=
  pyRound (hexNumHolesX sq fieldWidth fieldHeight numHoles LRBorder staggerY)

/-- actualNumHoles[1]: the rounded row count, numHoles / numHoles_x rounded. -/
def hexNy (sq : ℚ → ℚ) (fieldWidth fieldHeight numHoles : ℚ) (LRBorder staggerY : Bool) : ℤ :=
  pyRound (numHoles / hexNumHolesX sq fieldWidth fieldHeight numHoles LRBorder staggerY)

/-- d_x: the distance between holes in the same row. -/
def hexDX (sq : ℚ → ℚ) (fieldWidth fieldHeight holeSize numHoles : ℚ)
    (LRBorder staggerY : Bool) : ℚ :=
  if LRBorder then
    fieldWidth / ((hexNx sq fieldWidth fieldHeight numHoles LRBorder staggerY : ℚ) + 1/2)
  else
    (fieldWidth - holeSize) /
      ((hexNx sq fieldWidth fieldHeight numHoles LRBorder staggerY : ℚ) - 1/2)

/-- d_y: the distance between rows. -/
def hexDY (sq : ℚ → ℚ) (fieldWidth fieldHeight numHoles : ℚ) (LRBorder staggerY : Bool) : ℚ :=
  if staggerY then
    fieldHeight / ((hexNy sq fieldWidth fieldHeight numHoles LRBorder staggerY : ℚ) + 1/2)
  else fieldHeight / (hexNy sq fieldWidth fieldHeight numHoles LRBorder staggerY : ℚ)

/-- border_x: the horizontal border. -/
def hexBorderX (sq : ℚ → ℚ) (fieldWidth fieldHeight holeSize numHoles : ℚ)
    (LRBorder staggerY : Bool) : ℚ :=
  if LRBorder then hexDX sq fieldWidth fieldHeight holeSize numHoles LRBorder staggerY / 2
  else holeSize / 2

/-- border_y: the vertical border. -/
def hexBorderY (sq : ℚ → ℚ) (fieldWidth fieldHeight numHoles : ℚ)
    (LRBorder staggerY : Bool) : ℚ :=
  hexDY sq fieldWidth fieldHeight numHoles LRBorder staggerY / 2

/-- The layout derivation of HexagonalLikePlayer.play: column count nx, row
count ny (Python round of the quadratic solution and of numHoles/numHoles_x),
spacings dX, dY, borders borderX, borderY, and the layoutError flag.
none models the fatal paths: the unsupported combination
staggerY without LRBorder (print + exit), a ZeroDivisionError when
numHoles_x is zero, and a ZeroDivisionError in d_y when ny = 0 without
staggerY. -/
def hexLayout (sq : ℚ → ℚ) (fieldWidth fieldHeight holeSize numHoles : ℚ)
    (LRBorder staggerY : Bool) : Option HexLayout :=
  if ¬LRBorder ∧ staggerY then none
  else if hexNumHolesX sq fieldWidth fieldHeight numHoles LRBorder staggerY = 0 then none
  else if ¬staggerY ∧ hexNy sq fieldWidth fieldHeight numHoles LRBorder staggerY = 0 then none
  else
    some ⟨hexNx sq fieldWidth fieldHeight numHoles LRBorder staggerY,
      hexNy sq fieldWidth fieldHeight numHoles LRBorder staggerY,
      hexDX sq fieldWidth fieldHeight holeSize numHoles LRBorder staggerY,
      hexDY sq fieldWidth fieldHeight numHoles LRBorder staggerY,
      hexBorderX sq fieldWidth fieldHeight holeSize numHoles LRBorder staggerY,
      hexBorderY sq fieldWidth fieldHeight numHoles LRBorder staggerY,
      decide (hexBorderX sq fieldWidth fieldHeight holeSize numHoles LRBorder staggerY <
          holeSize / 2) ||
        decide (hexBorderY sq fieldWidth fieldHeight numHoles LRBorder staggerY < holeSize / 2) ||
        decide (hexDX sq fieldWidth fieldHeight holeSize numHoles LRBorder staggerY < holeSize) ||
        decide (hexDY sq fieldWidth fieldHeight numHoles LRBorder staggerY < holeSize)⟩

/-- A concrete stand-in for the float math.sqrt, accurate to a few decimals
at the two arguments reached by hexLayout with fieldWidth = fieldHeight =
100, numHoles = 5, LRBorder = true, staggerY = false: math.sqrt(3) and the
discriminant of the resulting quadratic call. -/
def sqrtCE : ℚ → ℚ := fun q =>
  if q = 3 then 17320508/10000000
  else if q = 70282032/100 then 83833438/100000
  else 0

/-- The configuration record read by ExperimentRunner._readExperimentValues
(the parts that drive the repetition loop of runExperiment). -/
structure DriverConfig where
  startHoles : ℤ
  maxHoles : ℤ
  holeIncrement : ℤ
  smallNumHolesIncrement : ℤ
  smallNumHolesIncrementCutoff : ℤ
  numRepeats : ℕ
  smallNumHolesNumRepeats : ℕ
  smallNumHolesNumRepeatsCutoff : ℤ
  stopAtSuccess : ℚ
  deriving Repr, DecidableEq

/-- The repeats loop of ExperimentRunner.runExperiment for one value of
holes.  play r is the (found, actualHoleCount) pair returned by
player.play on repeat r (the Player is rebuilt each repeat on a fresh field
with a fresh random treasure, so the pair is an oracle of the repeat index).
Arguments: remaining repeats, repeat index r, play-call count, successes,
holesDug, new, lastHole; result some (playCalls, successes, holesDug, new,
lastHole), or none on the fatal "inconsistent number of holes dug" exit. -/
def repeatsLoop (play : ℕ → Bool × ℤ) :
    ℕ → ℕ → ℕ → ℕ → ℤ → Bool → ℤ → Option (ℕ × ℕ × ℤ × Bool × ℤ)
  | 0, _, pc, succ, hd, new, lh => some (pc, succ, hd, new, lh)
  | rem + 1, r, pc, succ, hd, new, lh =>
      -- createFieldAndPlaceTreasure() and getPlayer() run here in the source,
      -- then the loop breaks before playing when the layout is not new
      if new = false then some (pc, succ, hd, new, lh)
      else
        let res := play r
        let succ1 := if res.1 then succ + 1 else succ
        if hd = -1 then
          let hd1 := res.2
          let st := if r = 0 then ((if lh = hd1 then false else new), hd1) else (new, lh)
          repeatsLoop play rem (r + 1) (pc + 1) succ1 hd1 st.1 st.2
        else if hd ≠ res.2 then none
        else
          let st := if r = 0 then ((if lh = hd then false else new), hd) else (new, lh)
          repeatsLoop play rem (r + 1) (pc + 1) succ1 hd st.1 st.2

/-- The repeat count chosen by runExperiment for a holes value:
smallNumHolesNumRepeats up to the cutoff, numRepeats beyond it. -/
def configuredRepeats (cfg : DriverConfig) (holes : ℤ) : ℕ :=
  if holes ≤ cfg.smallNumHolesNumRepeatsCutoff
    then cfg.smallNumHolesNumRepeats else cfg.numRepeats

/-- One iteration of the outer while loop of runExperiment for a given
holes value: choose the repeat count, run the repeats loop, and emit at most
one output row.  Result: some (playCalls, emitted row, lastHole, stop),
where stop is the success-threshold early-return test; none on the fatal
paths (inconsistent hole counts, or the ZeroDivisionError of printResults
when the repeat count is zero). -/
def runHolesValue (play : ℕ → Bool × ℤ) (cfg : DriverConfig) (holes lastHole : ℤ) :
    Option (ℕ × Option (ℤ × ℤ × ℚ) × ℤ × Bool) :=
  match repeatsLoop play (configuredRepeats cfg holes) 0 0 0 (-1) true lastHole with
  | none => none
  | some (pc, succ, hd, new, lh) =>
      if new then
        if configuredRepeats cfg holes = 0 then none
        else
          some (pc,
            some (holes, hd, (succ : ℚ) * 100 / (configuredRepeats cfg holes : ℚ)), lh,
            decide ((succ : ℚ) * 100 / (configuredRepeats cfg holes : ℚ) ≥ cfg.stopAtSuccess))
      else some (pc, none, lh, false)

/-- The outer while loop of runExperiment, with fuel for termination (none
when the fuel runs out, so a some result is a completed run).  play takes
the holes value and the repeat index.  acc accumulates the emitted data
rows (desiredHoles, actualHoles, successRatePercent). -/
def driverLoop (play : ℤ → ℕ → Bool × ℤ) (cfg : DriverConfig) :
    ℕ → ℤ → ℤ → List (ℤ × ℤ × ℚ) → Option (List (ℤ × ℤ × ℚ))
  | 0, _, _, _ => none
  | fuel + 1, holes, lastHole, acc =>
      if holes ≤ cfg.maxHoles then
        match runHolesValue (play holes) cfg holes lastHole with
        | none => none
        | some (_, row, lh, stop) =>
            if stop then some (acc ++ row.toList)
            else
              driverLoop play cfg fuel
                (if holes < cfg.smallNumHolesIncrementCutoff
                  then holes + cfg.smallNumHolesIncrement else holes + cfg.holeIncrement)
                lh (acc ++ row.toList)
      else some acc

/-- ExperimentRunner.runExperiment, reduced to the data rows it writes to
the results file: after the header line, a first "0, 0, 0" row is always
written, followed by the rows emitted by the while loop (lastHole starts
at -1). -/
def runExperimentRows (play : ℤ → ℕ → Bool × ℤ) (cfg : DriverConfig) (fuel : ℕ) :
    Option (List (ℤ × ℤ × ℚ)) :=
  (driverLoop play cfg fuel cfg.startHoles (-1) []).map fun rows => (0, 0, (0 : ℚ)) :: rows

/-- A dig oracle over a counting state: the state is the number of digHole
calls made so far, and the hit result of the k-th dig is hit k.  Used to
express "doStaggeredLayout digs exactly xHoles * yHoles holes". -/
def countingDig (hit : ℕ → Bool) : ℕ → ℚ → ℚ → ℚ → Bool × ℕ :=
  fun k _ _ _ => (hit k, k + 1)

/-- A rational upper bound for the square root, adequate for the
over-approximation hypothesis of the quadratic-formula theorem: whenever
0 ≤ x and x ^ 2 < y, also x < y + 1. -/
def sqLin : ℚ → ℚ := fun y => y + 1

/-- Concrete doStaggeredLayout parameters whose extents pass the fit checks
(totalX = 2 * 1 + 1.5 * 2 = 5 = width, totalY = 2 * 1 + 1 * 2 = 4 = height). -/
def pFit : LayoutParams := ⟨5, 4, 1, 2, 2, 1, 2, 1, 2, false, false, 1⟩

section HelperLemmas

/-- The clamped centre keeps the hole's square inside [0, extent] whenever
the hole fits the field at all. -/
lemma clampCentre_bounds (extent holeSize c : ℚ) (hle : holeSize ≤ extent) :
    0 ≤ (clampCentre extent holeSize c).1 - holeSize / 2 ∧
      (clampCentre extent holeSize c).1 + holeSize / 2 ≤ extent := by
  unfold clampCentre
  split_ifs with h1 h2 <;> refine ⟨?_, ?_⟩ <;> dsimp only <;> linarith

/-- Case description of the clamped centre. -/
lemma clampCentre_spec (extent holeSize c : ℚ) :
    (c - holeSize / 2 < 0 → (clampCentre extent holeSize c).1 = holeSize / 2) ∧
      (¬(c - holeSize / 2 < 0) → c + holeSize / 2 > extent →
        (clampCentre extent holeSize c).1 = extent - holeSize / 2) ∧
      (¬(c - holeSize / 2 < 0) → ¬(c + holeSize / 2 > extent) →
        (clampCentre extent holeSize c).1 = c) := by
  unfold clampCentre
  split_ifs with h1 h2 <;>
    refine ⟨?_, fun ha hb => ?_, fun ha hb => ?_⟩ <;> intros <;> first | rfl | contradiction

/-- IntersectField.digHole with a placed treasure: the explicit result. -/
lemma digHole_some (sq : ℚ → ℚ) (f : IntersectField) (hs cx cy : ℚ)
    (hp : f.treasurePlaced = true) :
    IntersectField.digHole sq f hs cx cy =
      some (intersectsTreasure sq f.treasure
          ⟨(clampCentre f.width hs cx).1, (clampCentre f.height hs cy).1, hs, hs⟩,
        { f with
          holes := f.holes ++
            [⟨(clampCentre f.width hs cx).1, (clampCentre f.height hs cy).1, hs, hs⟩]
          adjustedHoleAtBorder :=
            f.adjustedHoleAtBorder || (clampCentre f.width hs cx).2 ||
              (clampCentre f.height hs cy).2 }) := by
  unfold IntersectField.digHole
  rw [if_neg (by simp [hp])]

/-- One digHole call updates the border-adjustment flag exactly by or-ing in
the two per-axis clamp indicators. -/
lemma digHole_adjusted_eq (sq : ℚ → ℚ) (f : IntersectField) (hs cx cy : ℚ)
    (b : Bool) (f1 : IntersectField)
    (h : IntersectField.digHole sq f hs cx cy = some (b, f1)) :
    f1.adjustedHoleAtBorder =
      (f.adjustedHoleAtBorder || (clampCentre f.width hs cx).2 ||
        (clampCentre f.height hs cy).2) := by
  unfold IntersectField.digHole at h
  split at h
  · exact absurd h (by simp)
  · rw [Option.some.injEq, Prod.mk.injEq] at h
    rw [← h.2]

/-- Once set, later digHole calls keep the border-adjustment flag. -/
lemma digMany_adjusted_mono (sq : ℚ → ℚ) :
    ∀ (calls : List (ℚ × ℚ × ℚ)) (f f2 : IntersectField),
      f.adjustedHoleAtBorder = true → IntersectField.digMany sq f calls = some f2 →
      f2.adjustedHoleAtBorder = true := by
  intro calls
  induction calls with
  | nil =>
      intro f f2 hadj h
      simp only [IntersectField.digMany, Option.some.injEq] at h
      exact h ▸ hadj
  | cons c cs ih =>
      intro f f2 hadj h
      unfold IntersectField.digMany at h
      cases hd : IntersectField.digHole sq f c.1 c.2.1 c.2.2 with
      | none => rw [hd] at h; exact absurd h (by simp)
      | some r =>
          rw [hd] at h
          have h1 : r.2.adjustedHoleAtBorder = true := by
            have := digHole_adjusted_eq sq f c.1 c.2.1 c.2.2 r.1 r.2 (by rw [hd])
            rw [this, hadj]
            simp
          exact ih r.2 f2 h1 h

end HelperLemmas

/-- C6: Hole.intersects is symmetric, and two holes that merely touch at an
edge (here: the first hole's right edge coordinate equal to the second
hole's left edge coordinate) do not intersect, because the overlap test is
strict on both axes. -/
theorem hole_intersects_symm_and_touching (A B : Hole) :
    A.intersects B = B.intersects A ∧
      (A.centreX + A.width / 2 = B.centreX - B.width / 2 → A.intersects B = false) := by
  constructor
  · simp only [Hole.intersects]
    rw [Bool.and_comm (decide (B.centreX - B.width / 2 < A.centreX + A.width / 2)),
      Bool.and_comm (decide (B.centreY - B.height / 2 < A.centreY + A.height / 2))]
  · intro h
    simp only [Hole.intersects, ← h]
    simp

/-- Witness for C6 at concrete holes: A = ⟨0,0,2,2⟩ and B = ⟨2,0,2,2⟩ share
the edge x = 1 and do not intersect. -/
theorem hole_intersects_symm_and_touching_witness :
    Hole.intersects ⟨0, 0, 2, 2⟩ ⟨2, 0, 2, 2⟩ = false :=
  (hole_intersects_symm_and_touching ⟨0, 0, 2, 2⟩ ⟨2, 0, 2, 2⟩).2 (by norm_num)

/-- C8: on every Field variant, digHole before any treasure has been placed
is fatal (modelled by the none result: the process aborts before any hole
is appended, so the hole list is never extended on this path).  For
IntersectField and RealWorldField the constructor sets the placed flag to
False and digHole prints a diagnostic and exits; a fresh PolygonField has no
such attribute at all (treasurePlaced = none) and digHole dies with an
AttributeError. -/
theorem digHole_before_treasure_fatal (sq : ℚ → ℚ) (tt : Hole → Bool)
    (fi : IntersectField) (fr : RealWorldField) (fp : PolygonField) (hs x y : ℚ)
    (hi : fi.treasurePlaced = false) (hr : fr.treasurePlaced = false)
    (hp : fp.treasurePlaced = none) :
    IntersectField.digHole sq fi hs x y = none ∧
      RealWorldField.digHole fr hs x y = none ∧
      PolygonField.digHole tt fp hs x y = none := by
  refine ⟨?_, ?_, ?_⟩
  · simp [IntersectField.digHole, hi]
  · simp [RealWorldField.digHole, hr]
  · simp [PolygonField.digHole, hp]

/-- Witness for C8 at concrete fresh fields of size 10 × 10. -/
theorem digHole_before_treasure_fatal_witness :
    IntersectField.digHole (fun q => q) ⟨10, 10, [], false, false, .circle 0 0 1⟩ 1 5 5 = none ∧
      RealWorldField.digHole ⟨10, 10, [], false, 1, 1, 0, 0, [], 0⟩ 1 5 5 = none ∧
      PolygonField.digHole (fun _ => false) ⟨10, 10, [], none⟩ 1 5 5 = none :=
  digHole_before_treasure_fatal (fun q => q) (fun _ => false) _ _ _ 1 5 5 rfl rfl rfl

/-- C7 counterexample: RealWorldField.digHole records nothing about
clamping.  On a fresh 10 × 10 real-world field, digging at centre (-5, 5)
clamps the centre to (1, 5) (the clamp indicator for x is true), while
digging at (1, 5) needs no clamping at all, yet the two calls produce
exactly the same field state — so no border-adjustment flag exists in a
RealWorldField: if digHole set one whenever the dug hole's centre needed
clamping, these states would differ. -/
theorem border_flag_counterexample :
    RealWorldField.digHole ⟨10, 10, [], true, 1, 1, 0, 0, [], 0⟩ 2 (-5) 5 =
        RealWorldField.digHole ⟨10, 10, [], true, 1, 1, 0, 0, [], 0⟩ 2 1 5 ∧
      (clampCentre 10 2 (-5)).2 = true ∧ (clampCentre 10 2 1).2 = false ∧
      (clampCentre 10 2 5).2 = false := by
  refine ⟨?_, ?_, ?_, ?_⟩ <;> norm_num [RealWorldField.digHole, clampCentre]

/-- C7 amended: only IntersectField maintains the border-adjustment flag:
digHole sets it exactly when a clamp branch was taken on either axis (and
otherwise preserves it), and once true it stays true over any further
sequence of digs. -/
theorem border_flag_set_and_persists (sq : ℚ → ℚ) :
    (∀ (f : IntersectField) (hs cx cy : ℚ) (b : Bool) (f1 : IntersectField),
        IntersectField.digHole sq f hs cx cy = some (b, f1) →
        f1.adjustedHoleAtBorder =
          (f.adjustedHoleAtBorder || (clampCentre f.width hs cx).2 ||
            (clampCentre f.height hs cy).2)) ∧
      (∀ (calls : List (ℚ × ℚ × ℚ)) (f f2 : IntersectField),
        f.adjustedHoleAtBorder = true → IntersectField.digMany sq f calls = some f2 →
        f2.adjustedHoleAtBorder = true) :=
  ⟨fun f hs cx cy b f1 h => digHole_adjusted_eq sq f hs cx cy b f1 h,
    fun calls f f2 hadj h => digMany_adjusted_mono sq calls f f2 hadj h⟩

/-- Witness for C7 (amended) at a concrete dig: clamping at the left edge of
a 10 × 10 field sets the flag, and a further dig keeps it. -/
theorem border_flag_set_and_persists_witness :
    ({ width := 10, height := 10, holes := [⟨5, 5, 2, 2⟩], treasurePlaced := true,
        adjustedHoleAtBorder := true, treasure := .circle 5 5 1 } :
      IntersectField).adjustedHoleAtBorder = true := by
  have h : IntersectField.digMany (fun q => q)
      ⟨10, 10, [], true, true, .circle 5 5 1⟩ [(2, 5, 5)] =
      some ⟨10, 10, [⟨5, 5, 2, 2⟩], true, true, .circle 5 5 1⟩ := by
    norm_num [IntersectField.digMany, IntersectField.digHole, clampCentre, intersectsTreasure]
  exact (border_flag_set_and_persists (fun q => q)).2 [(2, 5, 5)]
    ⟨10, 10, [], true, true, .circle 5 5 1⟩
    ⟨10, 10, [⟨5, 5, 2, 2⟩], true, true, .circle 5 5 1⟩ rfl h

/-- C5: on an IntersectField with a placed treasure and
0 < holeSize ≤ min(width, height), digHole appends exactly one hole: its
centre is the requested one shifted inward to holeSize/2 from any edge the
square would cross and unchanged otherwise, its square lies within
[0, width] × [0, height], the returned Bool is the treasure-intersection
test of that clamped hole, and the previously dug holes are untouched. -/
theorem digHole_clamped_append (sq : ℚ → ℚ) (f : IntersectField) (hs cx cy : ℚ)
    (hp : f.treasurePlaced = true) (h0 : 0 < hs) (hw : hs ≤ f.width) (hh : hs ≤ f.height) :
    ∃ (b : Bool) (f1 : IntersectField),
      IntersectField.digHole sq f hs cx cy = some (b, f1) ∧
      f1.holes = f.holes ++
        [⟨(clampCentre f.width hs cx).1, (clampCentre f.height hs cy).1, hs, hs⟩] ∧
      0 ≤ (clampCentre f.width hs cx).1 - hs / 2 ∧
      (clampCentre f.width hs cx).1 + hs / 2 ≤ f.width ∧
      0 ≤ (clampCentre f.height hs cy).1 - hs / 2 ∧
      (clampCentre f.height hs cy).1 + hs / 2 ≤ f.height ∧
      (cx - hs / 2 < 0 → (clampCentre f.width hs cx).1 = hs / 2) ∧
      (¬(cx - hs / 2 < 0) → cx + hs / 2 > f.width →
        (clampCentre f.width hs cx).1 = f.width - hs / 2) ∧
      (¬(cx - hs / 2 < 0) → ¬(cx + hs / 2 > f.width) → (clampCentre f.width hs cx).1 = cx) ∧
      (cy - hs / 2 < 0 → (clampCentre f.height hs cy).1 = hs / 2) ∧
      (¬(cy - hs / 2 < 0) → cy + hs / 2 > f.height →
        (clampCentre f.height hs cy).1 = f.height - hs / 2) ∧
      (¬(cy - hs / 2 < 0) → ¬(cy + hs / 2 > f.height) → (clampCentre f.height hs cy).1 = cy) ∧
      b = intersectsTreasure sq f.treasure
        ⟨(clampCentre f.width hs cx).1, (clampCentre f.height hs cy).1, hs, hs⟩ := by
  refine ⟨_, _, digHole_some sq f hs cx cy hp, rfl, ?_, ?_, ?_, ?_,
    (clampCentre_spec f.width hs cx).1, (clampCentre_spec f.width hs cx).2.1,
    (clampCentre_spec f.width hs cx).2.2, (clampCentre_spec f.height hs cy).1,
    (clampCentre_spec f.height hs cy).2.1, (clampCentre_spec f.height hs cy).2.2, rfl⟩
  · exact (clampCentre_bounds f.width hs cx hw).1
  · exact (clampCentre_bounds f.width hs cx hw).2
  · exact (clampCentre_bounds f.height hs cy hh).1
  · exact (clampCentre_bounds f.height hs cy hh).2

/-- Witness for C5 at a concrete dig: a 10 × 10 field with a placed circular
treasure, hole size 2, requested centre (0, 5). -/
theorem digHole_clamped_append_witness :
    0 ≤ (clampCentre 10 2 0).1 - 2 / 2 ∧ (clampCentre 10 2 0).1 + 2 / 2 ≤ 10 ∧
      0 ≤ (clampCentre 10 2 5).1 - 2 / 2 ∧ (clampCentre 10 2 5).1 + 2 / 2 ≤ 10 := by
  obtain ⟨b, f1, -, -, hx1, hx2, hy1, hy2, -⟩ :=
    digHole_clamped_append (fun q => q) ⟨10, 10, [], true, false, .circle 5 5 1⟩ 2 0 5
      rfl (by norm_num) (by norm_num) (by norm_num)
  exact ⟨hx1, hx2, hy1, hy2⟩


section StaggeredLemmas

variable {σ : Type} (p : LayoutParams) (dig : σ → ℚ → ℚ → ℚ → Bool × σ) (gauss : ℕ → ℚ × ℚ)

/-- An early return of the column loop always reports xHoles * yHoles. -/
lemma staggeredCols_inl_count (rah : Bool) (y : ℕ) :
    ∀ (rem x : ℕ) (px py : ℚ) (found : Bool) (made : ℕ) (s : σ) (f : Bool) (n : ℕ) (s1 : σ),
      staggeredCols p dig gauss rah y rem x px py found made s = Sum.inl (f, n, s1) →
      n = p.xHoles * p.yHoles := by
  intro rem
  induction rem with
  | zero => intro x px py found made s f n s1 h; simp [staggeredCols] at h
  | succ rem ih =>
      intro x px py found made s f n s1 h
      simp only [staggeredCols] at h
      split at h
      · simp only [Sum.inl.injEq, Prod.mk.injEq] at h
        exact h.2.1.symm
      · exact ih _ _ _ _ _ _ _ _ _ h

/-- A normally finishing column loop has made one dig per remaining column. -/
lemma staggeredCols_inr_count (rah : Bool) (y : ℕ) :
    ∀ (rem x : ℕ) (px py : ℚ) (found : Bool) (made : ℕ) (s : σ) (f : Bool) (n : ℕ) (s1 : σ),
      staggeredCols p dig gauss rah y rem x px py found made s = Sum.inr (f, n, s1) →
      n = made + rem := by
  intro rem
  induction rem with
  | zero =>
      intro x px py found made s f n s1 h
      simp only [staggeredCols, Sum.inr.injEq, Prod.mk.injEq] at h
      obtain ⟨-, h2, -⟩ := h
      omega
  | succ rem ih =>
      intro x px py found made s f n s1 h
      simp only [staggeredCols] at h
      split at h
      · simp at h
      · have := ih _ _ _ _ _ _ _ _ _ h
        omega

/-- With returnAfterHit = False the column loop never returns early. -/
lemma staggeredCols_false_inr (y : ℕ) :
    ∀ (rem x : ℕ) (px py : ℚ) (found : Bool) (made : ℕ) (s : σ),
      ∃ (f : Bool) (s1 : σ),
        staggeredCols p dig gauss false y rem x px py found made s =
          Sum.inr (f, made + rem, s1) := by
  intro rem
  induction rem with
  | zero => intro x px py found made s; exact ⟨found, s, by simp [staggeredCols]⟩
  | succ rem ih =>
      intro x px py found made s
      simp only [staggeredCols, Bool.false_and, Bool.false_eq_true, if_false]
      obtain ⟨f, s1, h⟩ := ih (x + 1) (px + p.dX) _ _ (made + 1) _
      rw [show made + (rem + 1) = made + 1 + rem from by omega]
      exact ⟨f, s1, h⟩

/-- An early return of the row loop always reports xHoles * yHoles. -/
lemma staggeredRows_inl_count (rah : Bool) :
    ∀ (rem y : ℕ) (found : Bool) (made : ℕ) (s : σ) (f : Bool) (n : ℕ) (s1 : σ),
      staggeredRows p dig gauss rah rem y found made s = Sum.inl (f, n, s1) →
      n = p.xHoles * p.yHoles := by
  intro rem
  induction rem with
  | zero => intro y found made s f n s1 h; simp [staggeredRows] at h
  | succ rem ih =>
      intro y found made s f n s1 h
      simp only [staggeredRows] at h
      cases hcols : staggeredCols p dig gauss rah y p.xHoles 0
          (if y % 2 ≠ 0 then p.borderX + p.dX / 2 else p.borderX)
          (p.borderY + p.dY * (y : ℚ)) found made s with
      | inl e =>
          obtain ⟨fe, ne, se⟩ := e
          rw [hcols] at h
          simp only [Sum.inl.injEq, Prod.mk.injEq] at h
          exact h.2.1 ▸ staggeredCols_inl_count p dig gauss rah y _ _ _ _ _ _ _ _ _ _ hcols
      | inr e =>
          obtain ⟨fe, ne, se⟩ := e
          rw [hcols] at h
          exact ih _ _ _ _ _ _ _ h

/-- A normally finishing row loop has dug xHoles holes per remaining row. -/
lemma staggeredRows_inr_count (rah : Bool) :
    ∀ (rem y : ℕ) (found : Bool) (made : ℕ) (s : σ) (f : Bool) (n : ℕ) (s1 : σ),
      staggeredRows p dig gauss rah rem y found made s = Sum.inr (f, n, s1) →
      n = made + rem * p.xHoles := by
  intro rem
  induction rem with
  | zero =>
      intro y found made s f n s1 h
      simp only [staggeredRows, Sum.inr.injEq, Prod.mk.injEq] at h
      obtain ⟨-, h2, -⟩ := h
      omega
  | succ rem ih =>
      intro y found made s f n s1 h
      simp only [staggeredRows] at h
      cases hcols : staggeredCols p dig gauss rah y p.xHoles 0
          (if y % 2 ≠ 0 then p.borderX + p.dX / 2 else p.borderX)
          (p.borderY + p.dY * (y : ℚ)) found made s with
      | inl e =>
          rw [hcols] at h
          simp at h
      | inr e =>
          obtain ⟨fe, ne, se⟩ := e
          rw [hcols] at h
          have h1 := staggeredCols_inr_count p dig gauss rah y _ _ _ _ _ _ _ _ _ _ hcols
          have h2 := ih _ _ _ _ _ _ _ h
          rw [h2, h1]
          ring

/-- With returnAfterHit = False the row loop never returns early. -/
lemma staggeredRows_false_inr :
    ∀ (rem y : ℕ) (found : Bool) (made : ℕ) (s : σ),
      ∃ (f : Bool) (s1 : σ),
        staggeredRows p dig gauss false rem y found made s =
          Sum.inr (f, made + rem * p.xHoles, s1) := by
  intro rem
  induction rem with
  | zero =>
      intro y found made s
      exact ⟨found, s, by simp [staggeredRows]⟩
  | succ rem ih =>
      intro y found made s
      simp only [staggeredRows]
      obtain ⟨f1, s1, h1⟩ := staggeredCols_false_inr p dig gauss y p.xHoles 0
        (if y % 2 ≠ 0 then p.borderX + p.dX / 2 else p.borderX)
        (p.borderY + p.dY * (y : ℚ)) found made s
      rw [h1]
      obtain ⟨f2, s2, h2⟩ := ih (y + 1) f1 (made + p.xHoles) s1
      rw [show made + (rem + 1) * p.xHoles = made + p.xHoles + rem * p.xHoles from by ring]
      exact ⟨f2, s2, h2⟩

end StaggeredLemmas


section LayoutCountLemmas

variable {σ : Type} (p : LayoutParams) (dig : σ → ℚ → ℚ → ℚ → Bool × σ) (gauss : ℕ → ℚ × ℚ)

/-- Whenever doStaggeredLayout returns a pair, the reported hole count is
xHoles * yHoles, for every returnAfterHit value, every field and every
random draw. -/
lemma doStaggeredLayout_some_count (rah : Bool) (s : σ) (r : (Bool × ℕ) × σ)
    (h : doStaggeredLayout p dig gauss rah s = some r) : r.1.2 = p.xHoles * p.yHoles := by
  unfold doStaggeredLayout at h
  split_ifs at h with hA hB
  cases hrows : staggeredRows p dig gauss rah p.yHoles 0 false 0 s with
    | inl e =>
        obtain ⟨fe, ne, se⟩ := e
        rw [hrows] at h
        simp only [Option.some.injEq] at h
        rw [← h]
        exact staggeredRows_inl_count p dig gauss rah _ _ _ _ _ _ _ _ hrows
    | inr e =>
        obtain ⟨fe, ne, se⟩ := e
        rw [hrows] at h
        simp only [Option.some.injEq] at h
        rw [← h]
        have := staggeredRows_inr_count p dig gauss rah _ _ _ _ _ _ _ _ hrows
        simpa [Nat.mul_comm] using this

/-- doStaggeredLayout fails (fatally) exactly when the rounded extents do
not match the field dimensions — independently of the field, the digging
results, the draws and returnAfterHit. -/
lemma doStaggeredLayout_none_iff (rah : Bool) (s : σ) :
    doStaggeredLayout p dig gauss rah s = none ↔
      (pyRound2 (totalXExtent p) ≠ pyRound2 p.fieldWidth ∨
        pyRound2 (totalYExtent p) ≠ pyRound2 p.fieldHeight) := by
  unfold doStaggeredLayout
  split_ifs with hA hB
  · simp [hA]
  · simp [hB]
  · cases hrows : staggeredRows p dig gauss rah p.yHoles 0 false 0 s with
    | inl e => obtain ⟨fe, ne, se⟩ := e; simp [hA, hB]
    | inr e => obtain ⟨fe, ne, se⟩ := e; simp [hA, hB]

/-- The reported count (under Option.map) does not depend on the field
state, the dig function, the draws, or returnAfterHit. -/
lemma doStaggeredLayout_count_map {σ' : Type} (dig' : σ' → ℚ → ℚ → ℚ → Bool × σ')
    (gauss' : ℕ → ℚ × ℚ) (rah rah' : Bool) (s : σ) (s' : σ') :
    ((doStaggeredLayout p dig gauss rah s).map fun r => r.1.2) =
      ((doStaggeredLayout p dig' gauss' rah' s').map fun r => r.1.2) := by
  cases hL : doStaggeredLayout p dig gauss rah s with
  | none =>
      have hfit := (doStaggeredLayout_none_iff p dig gauss rah s).mp hL
      have hR : doStaggeredLayout p dig' gauss' rah' s' = none :=
        (doStaggeredLayout_none_iff p dig' gauss' rah' s').mpr hfit
      rw [hR]
      rfl
  | some r =>
      cases hR : doStaggeredLayout p dig' gauss' rah' s' with
      | none =>
          have hfit := (doStaggeredLayout_none_iff p dig' gauss' rah' s').mp hR
          have hL2 : doStaggeredLayout p dig gauss rah s = none :=
            (doStaggeredLayout_none_iff p dig gauss rah s).mpr hfit
          rw [hL2] at hL
          exact Option.noConfusion hL
      | some r2 =>
          simp only [Option.map_some']
          rw [doStaggeredLayout_some_count p dig gauss rah s r hL,
            doStaggeredLayout_some_count p dig' gauss' rah' s' r2 hR]

/-- The column loop over the counting dig oracle advances the state by one
per dig: starting with state = made, it ends with state = made + rem. -/
lemma staggeredCols_counting (hit : ℕ → Bool) (y : ℕ) :
    ∀ (rem x : ℕ) (px py : ℚ) (found : Bool) (made : ℕ),
      ∃ f : Bool, staggeredCols p (countingDig hit) gauss false y rem x px py found made made =
        Sum.inr (f, made + rem, made + rem) := by
  intro rem
  induction rem with
  | zero => intro x px py found made; exact ⟨found, by simp [staggeredCols]⟩
  | succ rem ih =>
      intro x px py found made
      simp only [staggeredCols, countingDig, Bool.false_and, Bool.false_eq_true, if_false]
      obtain ⟨f, h⟩ := ih (x + 1) (px + p.dX) _ _ (made + 1)
      rw [show made + (rem + 1) = made + 1 + rem from by omega]
      exact ⟨f, h⟩

/-- The row loop over the counting dig oracle: state = dig count throughout. -/
lemma staggeredRows_counting (hit : ℕ → Bool) :
    ∀ (rem y : ℕ) (found : Bool) (made : ℕ),
      ∃ f : Bool, staggeredRows p (countingDig hit) gauss false rem y found made made =
        Sum.inr (f, made + rem * p.xHoles, made + rem * p.xHoles) := by
  intro rem
  induction rem with
  | zero => intro y found made; exact ⟨found, by simp [staggeredRows]⟩
  | succ rem ih =>
      intro y found made
      simp only [staggeredRows]
      obtain ⟨f1, h1⟩ := staggeredCols_counting p gauss hit y p.xHoles 0
        (if y % 2 ≠ 0 then p.borderX + p.dX / 2 else p.borderX)
        (p.borderY + p.dY * (y : ℚ)) found made
      rw [h1]
      obtain ⟨f2, h2⟩ := ih (y + 1) f1 (made + p.xHoles)
      rw [show made + (rem + 1) * p.xHoles = made + p.xHoles + rem * p.xHoles from by ring]
      exact ⟨f2, h2⟩

/-- Over the counting dig oracle, a completed layout with
returnAfterHit = False has performed exactly xHoles * yHoles digHole calls,
and reports that same number. -/
lemma doStaggeredLayout_counting (hit : ℕ → Bool) (r : (Bool × ℕ) × ℕ)
    (h : doStaggeredLayout p (countingDig hit) gauss false 0 = some r) :
    r.2 = p.xHoles * p.yHoles ∧ r.1.2 = p.xHoles * p.yHoles := by
  unfold doStaggeredLayout at h
  split_ifs at h with hA hB
  obtain ⟨f, hrows⟩ := staggeredRows_counting p gauss hit p.yHoles 0 false 0
  rw [hrows] at h
  simp only [Option.some.injEq] at h
  rw [← h]
  simp [Nat.mul_comm]

/-- The Halton loop reports numHoles on every exit path. -/
lemma haltonLoop_count (points : ℕ → ℚ × ℚ) (fw fh hs bd : ℚ) (n : ℕ) (rah : Bool) :
    ∀ (rem i : ℕ) (found : Bool) (s : σ),
      (haltonLoop dig points fw fh hs bd n rah rem i found s).1.2 = n := by
  intro rem
  induction rem with
  | zero => intro i found s; simp [haltonLoop]
  | succ rem ih =>
      intro i found s
      simp only [haltonLoop]
      split
      · rfl
      · exact ih _ _ _

end LayoutCountLemmas

/-- C1: for every layout configuration, every field behaviour and every
random draw, the actualHoleCount reported by doStaggeredLayout with
returnAfterHit = True equals the one reported with returnAfterHit = False
(early return never changes the reported count); whenever the layout
completes, the reported count is xHoles * yHoles; with
returnAfterHit = False exactly xHoles * yHoles digHole calls are performed
(witnessed by the counting dig oracle); and HaltonPlayer.play reports its
configured numHoles for both returnAfterHit values. -/
theorem play_reported_count_invariant {σ : Type} (p : LayoutParams)
    (dig : σ → ℚ → ℚ → ℚ → Bool × σ) (gauss : ℕ → ℚ × ℚ) (s : σ)
    (points : ℕ → ℚ × ℚ) (fw fh hs bd : ℚ) (n : ℕ) (rah : Bool) (hit : ℕ → Bool) :
    ((doStaggeredLayout p dig gauss true s).map fun r => r.1.2) =
        ((doStaggeredLayout p dig gauss false s).map fun r => r.1.2) ∧
      (∀ r, doStaggeredLayout p dig gauss rah s = some r → r.1.2 = p.xHoles * p.yHoles) ∧
      (∀ r, doStaggeredLayout p (countingDig hit) gauss false 0 = some r →
        r.2 = p.xHoles * p.yHoles ∧ r.1.2 = p.xHoles * p.yHoles) ∧
      (haltonPlay dig points fw fh hs bd n true s).1.2 =
        (haltonPlay dig points fw fh hs bd n false s).1.2 ∧
      (haltonPlay dig points fw fh hs bd n rah s).1.2 = n := by
  refine ⟨doStaggeredLayout_count_map p dig gauss dig gauss true false s s,
    fun r hr => doStaggeredLayout_some_count p dig gauss rah s r hr,
    fun r hr => doStaggeredLayout_counting p gauss hit r hr, ?_, ?_⟩
  · unfold haltonPlay
    rw [haltonLoop_count dig points fw fh hs bd n true n 0 false s,
      haltonLoop_count dig points fw fh hs bd n false n 0 false s]
  · exact haltonLoop_count dig points fw fh hs bd n rah n 0 false s

/-- Witness for C1 on the concrete fitting parameters pFit (2 × 2 grid on a
5 × 4 field): with returnAfterHit = False the counting oracle performs
exactly 4 = 2 * 2 digs and the reported count is 4. -/
theorem play_reported_count_invariant_witness :
    doStaggeredLayout pFit (countingDig fun _ => false) (fun _ => (0, 0)) false 0 =
        some ((false, 4), 4) ∧
      (4 : ℕ) = pFit.xHoles * pFit.yHoles := by
  have h : doStaggeredLayout pFit (countingDig fun _ => false) (fun _ => (0, 0)) false 0 =
      some ((false, 4), 4) := by
    norm_num [doStaggeredLayout, totalXExtent, totalYExtent, pyRound2, pyRound, pFit,
      staggeredRows, staggeredCols, colPosY, digPosition, countingDig]
  exact ⟨h,
    ((play_reported_count_invariant pFit (countingDig fun _ => false) (fun _ => (0, 0)) 0
      (fun _ => (0, 0)) 0 0 0 0 0 false (fun _ => false)).2.2.1 ((false, 4), 4) h).1⟩

section HexEval

/-- Concrete evaluation of the hexagonal-like layout derivation at
fieldSize 100, holeSize 25, 5 requested holes, LRBorder, no staggerY,
with the sqrtCE oracle. -/
lemma hexLayoutCE_eval :
    hexLayout sqrtCE 100 100 25 5 true false = some ⟨2, 3, 40, 100/3, 20, 50/3, false⟩ := by
  have hx : hexNumHolesX sqrtCE 100 100 5 true false = 36916719/20000000 := by
    norm_num [hexNumHolesX, hexCoeffs, quadratic, sqrtCE]
  have hnx : hexNx sqrtCE 100 100 5 true false = 2 := by
    norm_num [hexNx, hx, pyRound]
  have hny : hexNy sqrtCE 100 100 5 true false = 3 := by
    norm_num [hexNy, hx, pyRound]
  have hdx : hexDX sqrtCE 100 100 25 5 true false = 40 := by
    norm_num [hexDX, hnx]
  have hdy : hexDY sqrtCE 100 100 5 true false = 100/3 := by
    norm_num [hexDY, hny]
  have hbx : hexBorderX sqrtCE 100 100 25 5 true false = 20 := by
    norm_num [hexBorderX, hdx]
  have hby : hexBorderY sqrtCE 100 100 5 true false = 50/3 := by
    norm_num [hexBorderY, hdy]
  unfold hexLayout
  rw [if_neg (by simp), if_neg (by rw [hx]; norm_num), if_neg (by rw [hny]; norm_num)]
  rw [hnx, hny, hdx, hdy, hbx, hby]
  norm_num

end HexEval

/-- C3 counterexample: at fieldSize 100, holeSize 25, requested holes 5
(LRBorder, no staggerY), with a sqrt oracle accurate to a few decimals at
the two arguments used, HexagonalLikePlayer.play computes nx = 2, ny = 3,
d_x = 40, d_y = 100/3, border_x = 20, border_y = 50/3: no computed spacing
or border is below the thresholds the code tests (holeSize for spacings,
holeSize/2 for borders), so layoutError stays False — yet border_x = 20 is
smaller than the hole size 25.  The claim "all computed spacings and
borders are ≥ holeSize, or the flag is set" is false: the code compares
borders against holeSize/2, not holeSize. -/
theorem hexLayout_fits_or_flags_counterexample :
    hexLayout sqrtCE 100 100 25 5 true false = some ⟨2, 3, 40, 100/3, 20, 50/3, false⟩ ∧
      ¬((HexLayout.mk 2 3 40 (100/3) 20 (50/3) false).layoutError = true ∨
        ((25 : ℚ) ≤ (HexLayout.mk 2 3 40 (100/3) 20 (50/3) false).borderX ∧
          (25 : ℚ) ≤ (HexLayout.mk 2 3 40 (100/3) 20 (50/3) false).borderY ∧
          (25 : ℚ) ≤ (HexLayout.mk 2 3 40 (100/3) 20 (50/3) false).dX ∧
          (25 : ℚ) ≤ (HexLayout.mk 2 3 40 (100/3) 20 (50/3) false).dY)) := by
  refine ⟨hexLayoutCE_eval, ?_⟩
  push_neg
  refine ⟨by norm_num, fun h => absurd h (by norm_num)⟩

/-- C3 (amended): after HexagonalLikePlayer.play computes its layout, the
layoutError flag is clear exactly when both spacings are at least holeSize
and both borders are at least holeSize/2 (the code tests borders against
half the hole size, which is what a centred hole needs to stay on-field);
equivalently, either the layout fits in this sense or the flag is set. -/
theorem hexLayout_error_flag (sq : ℚ → ℚ) (fw fh hs n : ℚ) (LRB sY : Bool) (d : HexLayout)
    (h : hexLayout sq fw fh hs n LRB sY = some d) :
    d.layoutError = false ↔
      (hs / 2 ≤ d.borderX ∧ hs / 2 ≤ d.borderY ∧ hs ≤ d.dX ∧ hs ≤ d.dY) := by
  unfold hexLayout at h
  split_ifs at h
  rw [← Option.some.inj h]
  simp only [Bool.or_eq_false_iff, decide_eq_false_iff_not, not_lt]
  constructor
  · rintro ⟨⟨⟨hbx, hby⟩, hdx⟩, hdy⟩
    exact ⟨hbx, hby, hdx, hdy⟩
  · rintro ⟨hbx, hby, hdx, hdy⟩
    exact ⟨⟨⟨hbx, hby⟩, hdx⟩, hdy⟩

/-- Witness for C3 (amended) at the counterexample's own concrete input:
the flag is clear and indeed both spacings are ≥ 25 and both borders
are ≥ 12.5. -/
theorem hexLayout_error_flag_witness :
    (HexLayout.mk 2 3 40 (100/3) 20 (50/3) false).layoutError = false ↔
      ((25 : ℚ) / 2 ≤ (HexLayout.mk 2 3 40 (100/3) 20 (50/3) false).borderX ∧
        (25 : ℚ) / 2 ≤ (HexLayout.mk 2 3 40 (100/3) 20 (50/3) false).borderY ∧
        (25 : ℚ) ≤ (HexLayout.mk 2 3 40 (100/3) 20 (50/3) false).dX ∧
        (25 : ℚ) ≤ (HexLayout.mk 2 3 40 (100/3) 20 (50/3) false).dY) :=
  hexLayout_error_flag sqrtCE 100 100 25 5 true false ⟨2, 3, 40, 100/3, 20, 50/3, false⟩
    hexLayoutCE_eval

/-- With a leading coefficient a > 0, a constant coefficient c < 0, and a
square-root oracle that over-approximates (x ≥ 0 and x² < y imply
x < sq y — true of the exact square root), the quadratic formula has a
strictly positive discriminant, returns its first root, and that root is
strictly positive. -/
lemma quadratic_pos_root (sq : ℚ → ℚ) (a b c : ℚ)
    (hsq : ∀ x y : ℚ, 0 ≤ x → x ^ 2 < y → x < sq y) (ha : 0 < a) (hc : c < 0) :
    0 < b ^ 2 - 4 * a * c ∧
      quadratic sq a b c = (-1 * b + sq (b ^ 2 - 4 * a * c)) / (2 * a) ∧
      0 < quadratic sq a b c := by
  have hd : 0 < b ^ 2 - 4 * a * c := by nlinarith [mul_pos ha (neg_pos.mpr hc), sq_nonneg b]
  have hbs : b < sq (b ^ 2 - 4 * a * c) := by
    rcases le_or_lt 0 b with hb | hb
    · exact hsq b _ hb (by nlinarith [mul_pos ha (neg_pos.mpr hc)])
    · have h0 : (0 : ℚ) < sq (b ^ 2 - 4 * a * c) := by
        have := hsq 0 (b ^ 2 - 4 * a * c) le_rfl (by nlinarith)
        linarith
      linarith
  have hx1 : 0 < (-1 * b + sq (b ^ 2 - 4 * a * c)) / (2 * a) :=
    div_pos (by linarith) (by linarith)
  refine ⟨hd, ?_, ?_⟩
  · simp only [quadratic]
    rw [if_pos hx1]
  · simp only [quadratic]
    rw [if_pos hx1]
    exact hx1

/-- C10: for a field with positive width and height and at least one
requested hole, every quadratic call of HexagonalLikePlayer.play (one per
supported LRBorder/staggerY combination) has a > 0 and c < 0, hence a
strictly positive discriminant; the returned value is the first root
(-b + sqrt(b² - 4ac)) / (2a), which is strictly positive, so the following
division numHoles / numHoles_x never divides by zero.  sq is any
square-root oracle satisfying the over-approximation property of the exact
square root. -/
theorem hex_quadratic_total (sq : ℚ → ℚ) (fw fh n : ℚ) (LRB sY : Bool)
    (hsq : ∀ x y : ℚ, 0 ≤ x → x ^ 2 < y → x < sq y)
    (hW : 0 < fw) (hH : 0 < fh) (hn : 1 ≤ n) (hok : LRB = true ∨ sY = false)
    (a b c : ℚ) (habc : hexCoeffs sq fw fh n LRB sY = (a, b, c)) :
    0 < a ∧ c < 0 ∧ 0 < b ^ 2 - 4 * a * c ∧
      quadratic sq a b c = (-1 * b + sq (b ^ 2 - 4 * a * c)) / (2 * a) ∧
      0 < quadratic sq a b c ∧
      hexNumHolesX sq fw fh n LRB sY ≠ 0 := by
  have hs3 : 0 < sq 3 := by
    have := hsq 0 3 le_rfl (by norm_num)
    linarith
  have hn0 : 0 < n := lt_of_lt_of_le one_pos hn
  have hprod : 0 < sq 3 * n * fw := mul_pos (mul_pos hs3 hn0) hW
  have key : 0 < a ∧ c < 0 := by
    cases LRB with
    | false =>
        rcases hok with h | h
        · exact absurd h (by simp)
        · subst h
          simp only [hexCoeffs, Bool.false_eq_true, if_false, Prod.mk.injEq] at habc
          obtain ⟨ha1, hb1, hc1⟩ := habc
          refine ⟨by rw [← ha1]; linarith, by rw [← hc1]; nlinarith⟩
    | true =>
        cases sY with
        | false =>
            simp only [hexCoeffs, if_true, Bool.false_eq_true, if_false, Prod.mk.injEq] at habc
            obtain ⟨ha1, hb1, hc1⟩ := habc
            refine ⟨by rw [← ha1]; linarith, by rw [← hc1]; nlinarith⟩
        | true =>
            simp only [hexCoeffs, if_true, Prod.mk.injEq] at habc
            obtain ⟨ha1, hb1, hc1⟩ := habc
            refine ⟨by rw [← ha1]; linarith, by rw [← hc1]; nlinarith⟩
  obtain ⟨ha, hc⟩ := key
  obtain ⟨hd, heq, hpos⟩ := quadratic_pos_root sq a b c hsq ha hc
  refine ⟨ha, hc, hd, heq, hpos, ?_⟩
  unfold hexNumHolesX
  rw [habc]
  exact ne_of_gt hpos

/-- Witness for C10 at a 100 × 100 field with 20 requested holes
(LRBorder, no staggerY), using the over-approximating oracle sqLin. -/
theorem hex_quadratic_total_witness :
    0 < quadratic sqLin (hexCoeffs sqLin 100 100 20 true false).1
        (hexCoeffs sqLin 100 100 20 true false).2.1
        (hexCoeffs sqLin 100 100 20 true false).2.2 ∧
      hexNumHolesX sqLin 100 100 20 true false ≠ 0 := by
  have h := hex_quadratic_total sqLin 100 100 20 true false
    (fun x y hx hxy => by simp only [sqLin]; nlinarith [sq_nonneg (x - 1)])
    (by norm_num) (by norm_num) (by norm_num) (Or.inl rfl)
    (hexCoeffs sqLin 100 100 20 true false).1 (hexCoeffs sqLin 100 100 20 true false).2.1
    (hexCoeffs sqLin 100 100 20 true false).2.2 rfl
  exact ⟨h.2.2.2.2.1, h.2.2.2.2.2⟩

section DriverLemmas

/-- Once new is False the repeats loop breaks immediately (before playing),
leaving the whole state unchanged. -/
lemma repeatsLoop_break (play : ℕ → Bool × ℤ) (rem r pc succ : ℕ) (hd lh : ℤ) :
    repeatsLoop play rem r pc succ hd false lh = some (pc, succ, hd, false, lh) := by
  cases rem <;> simp [repeatsLoop]

/-- From repeat 1 on, with a play oracle whose reported count is always c
and holesDug already c, the loop runs all remaining repeats: one play call
each, holesDug, new and lastHole unchanged. -/
lemma repeatsLoop_run (play : ℕ → Bool × ℤ) (c : ℤ) (hc : ∀ i, (play i).2 = c) :
    ∀ (rem r pc succ : ℕ) (lh : ℤ), 1 ≤ r →
      ∃ s2 : ℕ, repeatsLoop play rem r pc succ c true lh = some (pc + rem, s2, c, true, lh) := by
  intro rem
  induction rem with
  | zero => intro r pc succ lh hr; exact ⟨succ, by simp [repeatsLoop]⟩
  | succ rem ih =>
      intro r pc succ lh hr
      have hr0 : ¬(r = 0) := by omega
      have hplay := hc r
      by_cases hcm : c = -1
      · obtain ⟨s2, hrec⟩ := ih (r + 1) (pc + 1) (if (play r).1 then succ + 1 else succ) lh
          (by omega)
        refine ⟨s2, ?_⟩
        rw [show pc + (rem + 1) = pc + 1 + rem from by omega, ← hrec]
        simp only [repeatsLoop]
        rw [if_neg (by simp), if_pos hcm, if_neg hr0, hplay]
      · obtain ⟨s2, hrec⟩ := ih (r + 1) (pc + 1) (if (play r).1 then succ + 1 else succ) lh
          (by omega)
        refine ⟨s2, ?_⟩
        rw [show pc + (rem + 1) = pc + 1 + rem from by omega, ← hrec]
        simp only [repeatsLoop]
        rw [if_neg (by simp), if_neg hcm, if_neg (by rw [hplay]; simp), if_neg hr0]

/-- The skip path of the layout-reuse optimisation: when the first trial's
count equals the previous value's count, exactly one play call happens, no
row is produced, and the stop test is not taken. -/
lemma runHolesValue_skip (play : ℕ → Bool × ℤ) (cfg : DriverConfig) (holes lastHole : ℤ)
    (hrep : 1 ≤ configuredRepeats cfg holes) (heq : (play 0).2 = lastHole) :
    runHolesValue play cfg holes lastHole = some (1, none, (play 0).2, false) := by
  obtain ⟨m, hm⟩ : ∃ m, configuredRepeats cfg holes = m + 1 :=
    ⟨configuredRepeats cfg holes - 1, by omega⟩
  unfold runHolesValue
  rw [hm]
  simp only [repeatsLoop]
  simp [heq, repeatsLoop_break]

/-- The fresh-layout path: when the first trial's count differs from the
previous value's, all configured repeats run (one play call each) and one
row (holes, count, success rate) is produced. -/
lemma runHolesValue_new (play : ℕ → Bool × ℤ) (cfg : DriverConfig) (holes lastHole : ℤ)
    (hrep : 1 ≤ configuredRepeats cfg holes) (hne : (play 0).2 ≠ lastHole)
    (hcons : ∀ r, (play r).2 = (play 0).2) :
    ∃ succ : ℕ, runHolesValue play cfg holes lastHole =
      some (configuredRepeats cfg holes,
        some (holes, (play 0).2, (succ : ℚ) * 100 / (configuredRepeats cfg holes : ℚ)),
        (play 0).2,
        decide ((succ : ℚ) * 100 / (configuredRepeats cfg holes : ℚ) ≥ cfg.stopAtSuccess)) := by
  obtain ⟨m, hm⟩ : ∃ m, configuredRepeats cfg holes = m + 1 :=
    ⟨configuredRepeats cfg holes - 1, by omega⟩
  obtain ⟨s2, hrun⟩ := repeatsLoop_run play ((play 0).2) hcons m 1 1
    (if (play 0).1 then 1 else 0) ((play 0).2) le_rfl
  refine ⟨s2, ?_⟩
  unfold runHolesValue
  rw [hm]
  have hne1 : ¬(lastHole = (play 0).2) := fun h => hne h.symm
  simp only [repeatsLoop]
  simp [hne1, hrun, Nat.add_comm]

end DriverLemmas

/-- C2: in runExperiment, for a holes value with at least one configured
repeat: if the first trial (repeat 0) reports an actualHoleCount equal to
the count recorded for the previous holes value, then exactly one
player.play call happens (no further trials), no output row is emitted and
the experiment does not stop there; otherwise — the players being
deterministic in their count, as the driver itself asserts — every one of
the configured repeats runs (one play call each) and exactly one row
(holes, actualHoleCount, successRatePercent) is emitted. -/
theorem runExperiment_layout_reuse_rule (play : ℕ → Bool × ℤ) (cfg : DriverConfig)
    (holes lastHole : ℤ) (hrep : 1 ≤ configuredRepeats cfg holes) :
    ((play 0).2 = lastHole →
        runHolesValue play cfg holes lastHole = some (1, none, (play 0).2, false)) ∧
      ((play 0).2 ≠ lastHole → (∀ r, (play r).2 = (play 0).2) →
        ∃ succ : ℕ, runHolesValue play cfg holes lastHole =
          some (configuredRepeats cfg holes,
            some (holes, (play 0).2, (succ : ℚ) * 100 / (configuredRepeats cfg holes : ℚ)),
            (play 0).2,
            decide ((succ : ℚ) * 100 / (configuredRepeats cfg holes : ℚ) ≥
              cfg.stopAtSuccess))) :=
  ⟨fun heq => runHolesValue_skip play cfg holes lastHole hrep heq,
    fun hne hcons => runHolesValue_new play cfg holes lastHole hrep hne hcons⟩

/-- Witness for C2 at a concrete configuration: a player always reporting
count 1, with the previous holes value having recorded count 1, runs a
single trial and emits nothing. -/
theorem runExperiment_layout_reuse_rule_witness :
    runHolesValue (fun _ => (true, 1)) ⟨1, 2, 1, 1, 0, 1, 1, 0, 100⟩ 1 1 =
      some (1, none, 1, false) :=
  (runExperiment_layout_reuse_rule (fun _ => (true, 1)) ⟨1, 2, 1, 1, 0, 1, 1, 0, 100⟩ 1 1
    (by norm_num [configuredRepeats])).1 rfl

section DriverRowsLemmas

/-- With a play oracle of constant reported count c, a completed holes-value
iteration leaves lastHole = c, and an emitted row is (holes, c, rate). -/
lemma runHolesValue_det (play : ℕ → Bool × ℤ) (cfg : DriverConfig) (holes lh : ℤ) (c : ℤ)
    (hc : ∀ i, (play i).2 = c) (out : ℕ × Option (ℤ × ℤ × ℚ) × ℤ × Bool)
    (h : runHolesValue play cfg holes lh = some out) :
    out.2.2.1 = c ∧ ∀ row, out.2.1 = some row → row.1 = holes ∧ row.2.1 = c := by
  by_cases hrep0 : configuredRepeats cfg holes = 0
  · exfalso
    unfold runHolesValue at h
    rw [hrep0] at h
    simp [repeatsLoop] at h
  · have hrep : 1 ≤ configuredRepeats cfg holes := by omega
    by_cases hskip : (play 0).2 = lh
    · rw [runHolesValue_skip play cfg holes lh hrep hskip] at h
      simp only [Option.some.injEq] at h
      rw [← h]
      exact ⟨hc 0, fun row hrow => Option.noConfusion hrow⟩
    · obtain ⟨succ, hrun⟩ := runHolesValue_new play cfg holes lh hrep hskip
        (fun r => (hc r).trans (hc 0).symm)
      rw [hrun] at h
      simp only [Option.some.injEq] at h
      rw [← h]
      refine ⟨hc 0, ?_⟩
      intro row hrow
      simp only [Option.some.injEq] at hrow
      rw [← hrow]
      exact ⟨rfl, hc 0⟩

/-- The rows appended by the driver's while loop: each emitted row carries a
holes value at least the current one and the player's count for it, and
consecutive rows are strictly increasing in desiredHoles and non-decreasing
in actualHoles. -/
lemma driverLoop_rows (play : ℤ → ℕ → Bool × ℤ) (cfg : DriverConfig)
    (hdet : ∀ h i, (play h i).2 = (play h 0).2)
    (hmono : ∀ h h' : ℤ, h ≤ h' → (play h 0).2 ≤ (play h' 0).2)
    (hinc1 : 1 ≤ cfg.smallNumHolesIncrement) (hinc2 : 1 ≤ cfg.holeIncrement) :
    ∀ (fuel : ℕ) (holes lastHole : ℤ) (acc rows : List (ℤ × ℤ × ℚ)),
      driverLoop play cfg fuel holes lastHole acc = some rows →
      ∃ ext, rows = acc ++ ext ∧
        (∀ r ∈ ext, holes ≤ r.1 ∧ r.2.1 = (play r.1 0).2) ∧
        List.Chain' (fun a b : ℤ × ℤ × ℚ => a.1 < b.1 ∧ a.2.1 ≤ b.2.1) ext := by
  intro fuel
  induction fuel with
  | zero => intro holes lastHole acc rows h; simp [driverLoop] at h
  | succ fuel ih =>
      intro holes lastHole acc rows h
      unfold driverLoop at h
      split at h
      · cases hrv : runHolesValue (play holes) cfg holes lastHole with
        | none => rw [hrv] at h; exact Option.noConfusion h
        | some out =>
            obtain ⟨pc, row, lh2, stop⟩ := out
            obtain ⟨hlh2, hrow⟩ := runHolesValue_det (play holes) cfg holes lastHole
              ((play holes 0).2) (fun i => hdet holes i) (pc, row, lh2, stop) hrv
            rw [hrv] at h
            dsimp only at h
            split at h
            · simp only [Option.some.injEq] at h
              refine ⟨row.toList, h.symm, ?_, ?_⟩
              · intro r hr
                cases row with
                | none => exact absurd hr (by simp [Option.toList])
                | some rr =>
                    simp only [Option.toList, List.mem_singleton] at hr
                    subst hr
                    obtain ⟨h1, h2⟩ := hrow r rfl
                    exact ⟨le_of_eq h1.symm, by rw [h1]; exact h2⟩
              · cases row with
                | none => simp [Option.toList]
                | some rr => simp [Option.toList]
            · obtain ⟨ext2, hext2, hmem2, hchain2⟩ := ih _ _ _ _ h
              have hstep : holes < (if holes < cfg.smallNumHolesIncrementCutoff
                  then holes + cfg.smallNumHolesIncrement else holes + cfg.holeIncrement) := by
                split_ifs <;> omega
              refine ⟨row.toList ++ ext2, by rw [hext2, List.append_assoc], ?_, ?_⟩
              · intro r hr
                rcases List.mem_append.mp hr with hr1 | hr2
                · cases row with
                  | none => exact absurd hr1 (by simp [Option.toList])
                  | some rr =>
                      simp only [Option.toList, List.mem_singleton] at hr1
                      subst hr1
                      obtain ⟨h1, h2⟩ := hrow r rfl
                      exact ⟨le_of_eq h1.symm, by rw [h1]; exact h2⟩
                · obtain ⟨h1, h2⟩ := hmem2 r hr2
                  exact ⟨le_trans (le_of_lt hstep) h1, h2⟩
              · cases row with
                | none => simpa [Option.toList] using hchain2
                | some rr =>
                    simp only [Option.toList, List.singleton_append]
                    rw [List.chain'_cons']
                    refine ⟨?_, hchain2⟩
                    intro b hb
                    have hbmem : b ∈ ext2 := List.mem_of_mem_head? hb
                    obtain ⟨hb1, hb2⟩ := hmem2 b hbmem
                    obtain ⟨hr1, hr2⟩ := hrow rr rfl
                    have hlt : rr.1 < b.1 := by
                      rw [hr1]
                      exact lt_of_lt_of_le hstep hb1
                    refine ⟨hlt, ?_⟩
                    rw [hr2, hb2]
                    rw [hr1] at hlt
                    exact hmono holes b.1 (le_of_lt hlt)
      · simp only [Option.some.injEq] at h
        exact ⟨[], by rw [← h, List.append_nil], by simp, by simp⟩

end DriverRowsLemmas

/-- C9: every completed run of runExperiment writes, after the header, the
data row (0, 0, 0) first, and across the subsequently emitted rows the
desiredHoles values are strictly increasing and the actualHoles values are
non-decreasing.  The hypotheses record what the driver itself assumes of
every Player: the reported actualHoleCount depends only on the requested
holes value (the driver exits on any violation) and is non-decreasing in
it; both hole increments are positive (a non-positive increment cannot
terminate the while loop normally). -/
theorem runExperiment_results_rows (play : ℤ → ℕ → Bool × ℤ) (cfg : DriverConfig) (fuel : ℕ)
    (rows : List (ℤ × ℤ × ℚ))
    (hdet : ∀ h i, (play h i).2 = (play h 0).2)
    (hmono : ∀ h h' : ℤ, h ≤ h' → (play h 0).2 ≤ (play h' 0).2)
    (hinc1 : 1 ≤ cfg.smallNumHolesIncrement) (hinc2 : 1 ≤ cfg.holeIncrement)
    (h : runExperimentRows play cfg fuel = some rows) :
    ∃ tail, rows = (0, 0, (0 : ℚ)) :: tail ∧
      (∀ r ∈ tail, r.2.1 = (play r.1 0).2) ∧
      List.Chain' (fun a b : ℤ × ℤ × ℚ => a.1 < b.1 ∧ a.2.1 ≤ b.2.1) tail := by
  unfold runExperimentRows at h
  cases hd : driverLoop play cfg fuel cfg.startHoles (-1) [] with
  | none => rw [hd] at h; exact Option.noConfusion h
  | some rows0 =>
      rw [hd] at h
      simp only [Option.map_some', Option.some.injEq] at h
      obtain ⟨ext, hext, hmem, hchain⟩ :=
        driverLoop_rows play cfg hdet hmono hinc1 hinc2 fuel cfg.startHoles (-1) [] rows0 hd
      simp only [List.nil_append] at hext
      subst hext
      exact ⟨rows0, h.symm, fun r hr => (hmem r hr).2, hchain⟩

/-- Witness for C9: a deterministic monotone player (count = requested
holes) on a small configuration produces exactly the rows
(0, 0, 0), (1, 1, 100) and stops at the success threshold. -/
theorem runExperiment_results_rows_witness :
    List.Chain' (fun a b : ℤ × ℤ × ℚ => a.1 < b.1 ∧ a.2.1 ≤ b.2.1)
      [((1 : ℤ), (1 : ℤ), (100 : ℚ))] := by
  have hrun : runExperimentRows (fun (h : ℤ) (_ : ℕ) => (true, h)) ⟨1, 2, 1, 1, 0, 1, 1, 0, 100⟩ 5
      = some [((0 : ℤ), (0 : ℤ), (0 : ℚ)), (1, 1, 100)] := by
    norm_num [runExperimentRows, driverLoop, runHolesValue, repeatsLoop, configuredRepeats]
  obtain ⟨tail, htail, hmem, hchain⟩ :=
    runExperiment_results_rows (fun (h : ℤ) (_ : ℕ) => (true, h)) ⟨1, 2, 1, 1, 0, 1, 1, 0, 100⟩
      5 [((0 : ℤ), (0 : ℤ), (0 : ℚ)), (1, 1, 100)] (fun h i => rfl) (fun h h' hh => hh)
      (by norm_num) (by norm_num) hrun
  have htl : tail = [((1 : ℤ), (1 : ℤ), (100 : ℚ))] := by
    injection htail with h1 h2
    exact h2.symm
  exact htl ▸ hchain

section BucketLemmas

/-- Counting inside a filtered list counts the conjunction. -/
lemma countP_of_filter {α : Type} (f g : α → Bool) :
    ∀ l : List α, (l.filter g).countP f = l.countP fun p => f p && g p := by
  intro l
  induction l with
  | nil => simp
  | cons p l ih =>
      by_cases hg : g p = true
      · simp [List.filter_cons, hg, List.countP_cons, ih]
      · simp [List.filter_cons, hg, List.countP_cons, ih]

/-- Summing per-parcel counts over index boxes that cover the floors of all
points passing the test recovers the plain count. -/
lemma parcel_sum_count (test : (ℚ × ℚ) → Bool) (sx ex sy ey : ℤ) :
    ∀ l : List (ℚ × ℚ),
      (∀ p ∈ l, test p = true → ⌊p.1⌋ ∈ Finset.Icc sx ex ∧ ⌊p.2⌋ ∈ Finset.Icc sy ey) →
      (∑ i ∈ Finset.Icc sx ex, ∑ j ∈ Finset.Icc sy ey,
        l.countP fun p => test p && (decide (⌊p.1⌋ = i) && decide (⌊p.2⌋ = j))) =
        l.countP test := by
  intro l
  induction l with
  | nil => intro hb; simp
  | cons p l ih =>
      intro hb
      have hbl := fun q hq => hb q (List.mem_cons_of_mem p hq)
      simp only [List.countP_cons]
      rw [Finset.sum_congr rfl fun i _ => Finset.sum_add_distrib, Finset.sum_add_distrib,
        ih hbl]
      congr 1
      by_cases ht : test p = true
      · obtain ⟨hpx, hpy⟩ := hb p (List.mem_cons_self p l) ht
        simp only [ht, Bool.true_and, Bool.and_eq_true, decide_eq_true_eq, if_true]
        rw [Finset.sum_congr rfl fun i _ => Finset.sum_congr rfl fun j _ => ite_and _ _ _ _]
        simp [Finset.sum_ite_eq, hpx, hpy]
      · simp [ht]

end BucketLemmas

/-- C4: for every loaded point cloud (normalised artefacts lie in
[0, maxX] × [0, maxY]), every placement and every query hole, the
parcel-bucket count of RealWorldData.numArtefactsInHole equals the
brute-force linear scan over all normalised points with the closed
bounding-box test. -/
theorem numArtefactsInHole_eq_bruteForce (artefacts : List (ℚ × ℚ)) (maxX maxY tX tY : ℚ)
    (hole : Hole)
    (hb : ∀ p ∈ artefacts, 0 ≤ p.1 ∧ p.1 ≤ maxX ∧ 0 ≤ p.2 ∧ p.2 ≤ maxY) :
    numArtefactsInHole artefacts maxX maxY tX tY hole =
      bruteForceArtefactCount artefacts tX tY hole := by
  unfold numArtefactsInHole bruteForceArtefactCount
  split_ifs with hrej
  · symm
    rw [List.countP_eq_zero]
    intro p hp
    obtain ⟨h1, h2, h3, h4⟩ := hb p hp
    simp only [artefactInBox, Bool.and_eq_true, decide_eq_true_eq, ge_iff_le]
    rintro ⟨⟨⟨hA, hB⟩, hC⟩, hD⟩
    rcases hrej with h | h | h | h <;> linarith
  · have hpc : ∀ i j : ℤ, (parcelArtefacts artefacts i j).countP
        (artefactInBox tX tY (holeLeft hole) (holeRight hole)
          (holeTop hole) (holeBottom hole)) =
        artefacts.countP fun p => artefactInBox tX tY (holeLeft hole) (holeRight hole)
          (holeTop hole) (holeBottom hole) p &&
          (decide (⌊p.1⌋ = i) && decide (⌊p.2⌋ = j)) := by
      intro i j
      unfold parcelArtefacts
      exact countP_of_filter _ _ artefacts
    simp only [hpc]
    apply parcel_sum_count
    intro p hp ht
    obtain ⟨h1, h2, h3, h4⟩ := hb p hp
    simp only [artefactInBox, Bool.and_eq_true, decide_eq_true_eq, ge_iff_le] at ht
    obtain ⟨⟨⟨hA, hB⟩, hC⟩, hD⟩ := ht
    constructor
    · rw [Finset.mem_Icc]
      constructor
      · apply Int.floor_le_floor
        rw [sub_le_iff_le_add, max_le_iff]
        constructor <;> linarith
      · apply Int.floor_le_floor
        rw [le_sub_iff_add_le, le_min_iff]
        constructor <;> linarith
    · rw [Finset.mem_Icc]
      constructor
      · apply Int.floor_le_floor
        rw [sub_le_iff_le_add, max_le_iff]
        constructor <;> linarith
      · apply Int.floor_le_floor
        rw [le_sub_iff_add_le, le_min_iff]
        constructor <;> linarith

/-- Witness for C4 on a concrete two-point cloud and query hole. -/
theorem numArtefactsInHole_eq_bruteForce_witness :
    numArtefactsInHole [(1/2, 1/2), (3/2, 0)] 2 1 0 0 ⟨1, 1, 2, 2⟩ =
      bruteForceArtefactCount [(1/2, 1/2), (3/2, 0)] 0 0 ⟨1, 1, 2, 2⟩ :=
  numArtefactsInHole_eq_bruteForce [(1/2, 1/2), (3/2, 0)] 2 1 0 0 ⟨1, 1, 2, 2⟩
    (by
      intro p hp
      simp only [List.mem_cons, List.not_mem_nil, or_false] at hp
      rcases hp with rfl | rfl <;> norm_num)
